import Mathlib

/-!
Verification development for the SlotlyMed backend.

The slot generation engine exists in two variants in the repository:
`api/index.py` (generate_slots, 180+ day horizon, overlap based break
handling with a jump to the break end) and `api/schedule.py`
(handler.generate_slots, 90 day horizon, linear scan that only skips a
slot whose start lies inside a break). Both are embedded below, together
with the availability persistence operations of `supabase_client.py`.

Conventions of the embedding:
- A time of day is its number of minutes after midnight. Python time
  objects always satisfy 0 <= minutes < 1440; the embedding uses plain
  Nat values and states that invariant explicitly where a proof needs it.
- A calendar date is its day number; the epoch is chosen to be a Monday,
  so the Python expression date.weekday() is day number mod 7 with the
  Python convention Monday = 0.
- Dictionary fields are modelled by RawField: the key can be absent,
  present but unusable (a value which time.fromisoformat or isinstance
  rejects), or present with a usable value.
- Durations are Int, matching arbitrary precision Python integers.
- A cursor inside a day is an Int number of minutes relative to midnight
  of the processed date; Python datetime arithmetic lets it leave the
  interval [0, 1440), in which case strftime reports the shifted date
  (ediv) and the wrapped time of day (emod).
-/

namespace SlotlyMed

set_option maxRecDepth 100000

/-- Outcome of running a Python function in the model: a normal return,
an uncaught exception, or a loop that fails to finish within the supplied
fuel (used to model nontermination). -/
inductive GenResult (α : Type) where
  | ok (a : α)
  | crash
  | hang
  deriving DecidableEq

/-- The slot list of a result, empty unless the run returned normally. -/
def GenResult.out {α : Type} : GenResult (List α) → List α
  | .ok l => l
  | _ => []

/-- Whether the run returned normally. -/
def GenResult.isOk {α : Type} : GenResult α → Bool
  | .ok _ => true
  | _ => false

/-- A raw JSON dictionary field as the Python code reads it. -/
inductive RawField (α : Type) where
  | absent
  | bad
  | val (a : α)
  deriving DecidableEq

/-- True when the field holds a usable value. -/
def RawField.isVal {α : Type} : RawField α → Bool
  | .val _ => true
  | _ => false

/-- A Python string sitting in a date position: either the strftime image
of a calendar date (identified by its day number) or any other string.
Garbage strings are tagged by an arbitrary index so that distinct unusable
strings stay distinct. -/
inductive DStr where
  | valid (d : Nat)
  | garbage (g : Nat)
  deriving DecidableEq

/-- current_date.strftime with the date format, as used for the blocked
set membership test (index.py line 340). -/
def fmtDate (d : Nat) : DStr := DStr.valid d

/-- One entry of the blocked_dates list (index.py lines 270 to 287): a bare
string is added verbatim, a record with a date key has its value added
verbatim, a record with start and end keys is parsed and expanded (and
silently skipped when a bound fails to parse), and any other record is
ignored. -/
inductive BlockedEntry where
  | bare (s : DStr)
  | dateRec (s : DStr)
  | rangeRec (s e : Option Nat)
  | junk
  deriving DecidableEq

/-- All dates from a to b inclusive, one day at a time; empty when b < a. -/
def expandRange (a b : Nat) : List Nat :=
  (List.range (b + 1 - a)).map (fun k => a + k)

/-- Contribution of one blocked_dates entry to the blocked set. -/
def blockedOfEntry : BlockedEntry → List DStr
  | .bare s => [s]
  | .dateRec s => [s]
  | .rangeRec (some a) (some b) => (expandRange a b).map DStr.valid
  | .rangeRec _ _ => []
  | .junk => []

/-- Contribution of one blocked_date_ranges entry (index.py lines 290 to
299); a missing or unparsable bound makes the whole entry skip. -/
def blockedOfRange : Option Nat × Option Nat → List DStr
  | (some a, some b) => (expandRange a b).map DStr.valid
  | _ => []

/-- One break record: the start and end fields are read by direct
indexing and parsed with time.fromisoformat without any try block
(index.py lines 368 to 372), so an absent or unusable field raises. -/
structure RawBreak where
  start : RawField Nat
  stop : RawField Nat
  deriving DecidableEq

/-- Parse one break record; none models the uncaught exception. -/
def parseBreak : RawBreak → Option (Nat × Nat)
  | ⟨.val a, .val b⟩ => some (a, b)
  | _ => none

/-- Parse a break list in order, stopping at the first failure. -/
def parseBreaks : List RawBreak → Option (List (Nat × Nat))
  | [] => some []
  | b :: rest =>
    match parseBreak b with
    | some p => (parseBreaks rest).map (fun l => p :: l)
    | none => none

/-- The default rule dictionary of the structure (index.py lines 307 to
329 read it defensively, clamping every malformed field). -/
structure RawDefault where
  days : List String
  start_time : RawField Nat
  end_time : RawField Nat
  duration : RawField Int
  breaks : RawField (List RawBreak)
  deriving DecidableEq

/-- One override dictionary (index.py lines 331 to 336 and 351 to 356
read it without any clamping of unusable values). -/
structure RawOverride where
  day : Option String
  start_time : RawField Nat
  end_time : RawField Nat
  duration : RawField Int
  breaks : Option (List RawBreak)
  deriving DecidableEq

/-- The parsed schedule structure handed to generate_slots, after the
schedule and default unwrapping of index.py lines 262 to 265. -/
structure RawSchedule where
  dflt : RawDefault
  overrides : List RawOverride
  blocked_dates : List BlockedEntry
  blocked_ranges : List (Option Nat × Option Nat)
  deriving DecidableEq

/-- The day_mapping dictionary of index.py lines 302 to 305, as the list
of its keys in index order. -/
def dayNames : List String :=
  ["Monday", "Tuesday", "Wednesday", "Thursday", "Friday", "Saturday", "Sunday"]

/-- Weekday index of a day name, none for a name outside day_mapping. -/
def dayIndex : String → Option Nat
  | "Monday" => some 0
  | "Tuesday" => some 1
  | "Wednesday" => some 2
  | "Thursday" => some 3
  | "Friday" => some 4
  | "Saturday" => some 5
  | "Sunday" => some 6
  | _ => none

/-- Name of a weekday index (index.py line 348). -/
def weekdayName (w : Nat) : String := dayNames.getD w ""

/-- default_days: indexes of the recognised names of the default days
list (index.py lines 308 to 311). -/
def defaultDays (σ : RawSchedule) : List Nat :=
  σ.dflt.days.filterMap dayIndex

/-- default_start with its 09:00 fallback (index.py lines 313 to 316). -/
def defaultStart (σ : RawSchedule) : Nat :=
  match σ.dflt.start_time with
  | .val v => v
  | _ => 540

/-- default_end with its 17:00 fallback (index.py lines 318 to 321). -/
def defaultEnd (σ : RawSchedule) : Nat :=
  match σ.dflt.end_time with
  | .val v => v
  | _ => 1020

/-- default_duration: a missing or non integer value, or a value below 5,
is replaced by 30 (index.py lines 323 to 325). -/
def defaultDuration (σ : RawSchedule) : Int :=
  match σ.dflt.duration with
  | .val v => if v < 5 then 30 else v
  | _ => 30

/-- default_breaks: a missing or non list value becomes the empty list
(index.py lines 327 to 329). -/
def defaultBreaks (σ : RawSchedule) : List RawBreak :=
  match σ.dflt.breaks with
  | .val l => l
  | _ => []

/-- day_overrides lookup (index.py lines 331 to 336): the dictionary maps
each recognised day name to the last override carrying it. The queried
name always comes from weekdayName, hence is itself recognised, so the
registration guard day_name in day_mapping needs no separate test here. -/
def dayOverride (σ : RawSchedule) (name : String) : Option RawOverride :=
  (σ.overrides.filter (fun o => o.day == some name)).getLast?

/-- The resolved blocked set (index.py lines 267 to 299); a list models
the Python set, only membership is ever consulted. -/
def resolvedBlocked (σ : RawSchedule) : List DStr :=
  σ.blocked_dates.flatMap blockedOfEntry ++ σ.blocked_ranges.flatMap blockedOfRange

/-- The effective rule of a day, before break parsing. The duration keeps
its raw form because a non integer override duration only raises later,
at the timedelta call of line 377, after the breaks were parsed. -/
structure EffRule where
  start : Nat
  stop : Nat
  duration : RawField Int
  breaks : List RawBreak
  deriving DecidableEq

/-- Value of a time field with its fallback (override.get of index.py
lines 353 to 354, reached only when the field is not unusable). -/
def fallbackTime (f : RawField Nat) (dflt : Nat) : Nat :=
  match f with
  | .val v => v
  | _ => dflt

/-- Override duration field: an absent key falls back to the default
duration; a present value, usable or not, is kept as read (index.py line
355 performs no validation, a non integer only raises at line 377). -/
def overrideDur (σ : RawSchedule) (o : RawOverride) : RawField Int :=
  match o.duration with
  | .absent => RawField.val (defaultDuration σ)
  | d => d

/-- The effective rule built from one override (index.py lines 351 to 356):
absent time fields fall back to 09:00 and 17:00, the duration falls back
to the default duration, absent breaks become the empty list. -/
def overrideRule (σ : RawSchedule) (o : RawOverride) : EffRule :=
  ⟨fallbackTime o.start_time 540, fallbackTime o.end_time 1020, overrideDur σ o,
    o.breaks.getD []⟩

/-- The effective rule taken verbatim from the default rule (index.py
lines 357 to 361). -/
def defaultRule (σ : RawSchedule) : EffRule :=
  ⟨defaultStart σ, defaultEnd σ, RawField.val (defaultDuration σ), defaultBreaks σ⟩

/-- Day rule selection (index.py lines 339 to 364): a blocked date yields
no rule, else an override for the weekday name wins (its unusable time
fields raise), else the default rule applies when the weekday is enabled,
else there is no rule. -/
def selectRule (σ : RawSchedule) (date : Nat) : GenResult (Option EffRule) :=
  if fmtDate date ∈ resolvedBlocked σ then .ok none
  else
    match dayOverride σ (weekdayName (date % 7)) with
    | some o =>
      if o.start_time = RawField.bad ∨ o.end_time = RawField.bad then .crash
      else .ok (some (overrideRule σ o))
    | none =>
      if date % 7 ∈ defaultDays σ then .ok (some (defaultRule σ))
      else .ok none

/-- Overlap test of index.py line 389. Both sides are read through
Python .time(), which is the minute value modulo 1440 because the
underlying datetimes live on a shifted date once the cursor leaves the
interval [0, 1440). -/
def overlapB (t tEnd : Int) (p : Nat × Nat) : Bool :=
  !(decide (t.emod 1440 ≥ (p.2 : Int)) || decide (tEnd.emod 1440 ≤ (p.1 : Int)))

/-- First break overlapping the candidate slot, returning its end
(index.py lines 385 to 392). -/
def findBreak (brs : List (Nat × Nat)) (t tEnd : Int) : Option Nat :=
  (brs.find? (overlapB t tEnd)).map (fun p => p.2)

/-- The inner while loop of index.py lines 379 to 402, indexed by fuel;
none models a run that exceeds the fuel. The loop emits the cursor when
no break overlaps, else jumps the cursor to the end of the first
overlapping break. Comparisons against the end of day use the full
datetimes, hence the unwrapped Int values. -/
def slotLoop (dur endT : Int) (brs : List (Nat × Nat)) : Nat → Int → Option (List Int)
  | 0, _ => none
  | fuel + 1, t =>
    if t < endT then
      if t + dur > endT then some []
      else
        match findBreak brs t (t + dur) with
        | some be => slotLoop dur endT brs fuel (be : Int)
        | none => (slotLoop dur endT brs fuel (t + dur)).map (fun l => t :: l)
    else some []

/-- A slot as produced by the generators: a date stamp, a time of day in
minutes, and a status. -/
structure Slot where
  date : Int
  time : Int
  status : String
  deriving DecidableEq

/-- Emission of index.py lines 398 to 401: both stamps come from
current_slot_time, so a cursor outside [0, 1440) lands on a shifted date
with a wrapped time of day. -/
def mkSlot (date : Nat) (c : Int) : Slot :=
  ⟨(date : Int) + c.ediv 1440, c.emod 1440, "available"⟩

/-- Fuel that bounds the inner loop whenever every step makes progress. -/
def dayFuel (st en : Nat) : Nat := (en - st) + 1

/-- Processing of one date of the horizon (index.py lines 340 to 404):
rule selection, break parsing, duration check, then the slot loop. The
fuel argument overrides the canonical per day fuel when present, so that
nontermination can be quantified over every fuel. -/
def dayProcessF (fuel? : Option Nat) (σ : RawSchedule) (today i : Nat) :
    GenResult (List Slot) :=
  let date := today + i
  match selectRule σ date with
  | .crash => .crash
  | .hang => .hang
  | .ok none => .ok []
  | .ok (some r) =>
    match parseBreaks r.breaks with
    | none => .crash
    | some brs =>
      match r.duration with
      | .val d =>
        match slotLoop d (r.stop : Int) brs (fuel?.getD (dayFuel r.start r.stop))
            (r.start : Int) with
        | some ts => .ok (ts.map (mkSlot date))
        | none => .hang
      | _ => .crash

/-- The outer date loop of index.py lines 339 to 404, over a list of day
offsets: results concatenate in order, an exception or a hanging day
aborts the run. -/
def genDaysF (fuel? : Option Nat) (σ : RawSchedule) (today : Nat) :
    List Nat → GenResult (List Slot)
  | [] => .ok []
  | i :: rest =>
    match dayProcessF fuel? σ today i with
    | .ok l =>
      match genDaysF fuel? σ today rest with
      | .ok r => .ok (l ++ r)
      | .crash => .crash
      | .hang => .hang
    | .crash => .crash
    | .hang => .hang

/-- generate_slots of index.py lines 255 to 406: the date loop runs from
today up to and including today plus 180, hence over 181 day offsets. -/
def generate_slots (σ : RawSchedule) (today : Nat) : GenResult (List Slot) :=
  genDaysF none σ today (List.range 181)

/-- The run terminates when some amount of fuel lets every day finish. -/
def Terminates (σ : RawSchedule) (today : Nat) : Prop :=
  ∃ fuel, genDaysF (some fuel) σ today (List.range 181) ≠ GenResult.hang

/-- The required keys check of index.py lines 455 to 456 on the default
rule: the three scalar fields must be present (the days list is always
present in the model). -/
def validStructure (σ : RawSchedule) : Prop :=
  σ.dflt.start_time ≠ RawField.absent ∧ σ.dflt.end_time ≠ RawField.absent ∧
    σ.dflt.duration ≠ RawField.absent

/-- Invariant of Python time objects: every parsed time of day value is
below 1440 minutes. -/
def wfTime : RawField Nat → Bool
  | .val v => decide (v < 1440)
  | _ => true

/-- Both bounds of a break are genuine times of day when parsed. -/
def wfBreak (b : RawBreak) : Bool := wfTime b.start && wfTime b.stop

/-- Well formedness of a raw break list field. -/
def wfBreaksF : RawField (List RawBreak) → Bool
  | .val l => l.all wfBreak
  | _ => true

/-- Every time of day value in the structure is a genuine Python time,
i.e. below 1440 minutes. Python guarantees this by construction; the
embedding states it because its Nat fields are wider. -/
def wfSchedule (σ : RawSchedule) : Bool :=
  wfTime σ.dflt.start_time && wfTime σ.dflt.end_time && wfBreaksF σ.dflt.breaks &&
    σ.overrides.all (fun o =>
      wfTime o.start_time && wfTime o.end_time && (o.breaks.getD []).all wfBreak)

/-- Every override duration value is at least one minute (the default
duration is clamped to at least 5 by the code itself). -/
def posDurations (σ : RawSchedule) : Bool :=
  σ.overrides.all (fun o =>
    match o.duration with
    | .val v => decide (1 ≤ v)
    | _ => true)

/-- No field whose parse failure raises an uncaught exception is unusable:
override times and durations, and every break record in reach. -/
def noBadFields (σ : RawSchedule) : Bool :=
  (defaultBreaks σ).all (fun b => b.start.isVal && b.stop.isVal) &&
    σ.overrides.all (fun o =>
      o.start_time ≠ RawField.bad && o.end_time ≠ RawField.bad &&
        o.duration ≠ RawField.bad &&
        (o.breaks.getD []).all (fun b => b.start.isVal && b.stop.isVal))

/-- Strict chronological order on slots: by date, then by time of day. -/
def slotLt (a b : Slot) : Prop :=
  a.date < b.date ∨ (a.date = b.date ∧ a.time < b.time)

instance : DecidableRel slotLt := fun a b => by
  unfold slotLt
  infer_instance

/-!
The second enumerator variant: handler.generate_slots of api/schedule.py
lines 189 to 267. Times are parsed by splitting on the colon into an hour
and minute pair; a break whose start or end field is missing or empty is
skipped, while an unparsable non empty field raises. The inner loop emits
every slot whose start lies before the end of day (no containment check)
and skips only a slot whose start lies inside a break, jumping the cursor
to that break end.
-/

/-- ASCII lowercase of one character, the effect of Python str.lower on
the day names in play. -/
def lowerChar (c : Char) : Char :=
  if 65 ≤ c.toNat ∧ c.toNat ≤ 90 then Char.ofNat (c.toNat + 32) else c

/-- ASCII lowercase of a string (Python day_name.lower() of schedule.py
line 201). -/
def lowerStr (s : String) : String := ⟨s.data.map lowerChar⟩

/-- DAY_MAP of schedule.py lines 191 to 194, queried with the lowercased
input name. -/
def schedDayIndex : String → Option Nat
  | "monday" => some 0
  | "tuesday" => some 1
  | "wednesday" => some 2
  | "thursday" => some 3
  | "friday" => some 4
  | "saturday" => some 5
  | "sunday" => some 6
  | _ => none

/-- The schedule dictionary consumed by handler.generate_slots. A time
field holds an hour and minute pair once split and parsed; absent models
a missing key (or, for a break bound, an empty string) and bad a non
empty value whose int conversion raises. -/
structure SchedRaw where
  days : List String
  start_time : RawField (Nat × Nat)
  end_time : RawField (Nat × Nat)
  duration : RawField Int
  breaks : List (RawField (Nat × Nat) × RawField (Nat × Nat))
  deriving DecidableEq

/-- days_of_week (schedule.py lines 199 to 203). -/
def schedDays (σ : SchedRaw) : List Nat :=
  σ.days.filterMap (fun s => schedDayIndex (lowerStr s))

/-- Parse one break record (schedule.py lines 218 to 227): skipped when a
bound is missing or empty, raising when a bound fails to parse. -/
def schedParseBreak : RawField (Nat × Nat) × RawField (Nat × Nat) →
    GenResult (Option (Nat × Nat))
  | (.absent, _) => .ok none
  | (_, .absent) => .ok none
  | (.bad, _) => .crash
  | (_, .bad) => .crash
  | (.val a, .val b) => .ok (some (a.1 * 60 + a.2, b.1 * 60 + b.2))

/-- Parse the break list in order, keeping the parsed entries. -/
def schedParseBreaks : List (RawField (Nat × Nat) × RawField (Nat × Nat)) →
    GenResult (List (Nat × Nat))
  | [] => .ok []
  | b :: rest =>
    match schedParseBreak b with
    | .crash => .crash
    | .hang => .hang
    | .ok none =>
      schedParseBreaks rest
    | .ok (some p) =>
      match schedParseBreaks rest with
      | .ok l => .ok (p :: l)
      | .crash => .crash
      | .hang => .hang

/-- The inner while loop of schedule.py lines 241 to 265: a slot whose
start lies inside some break (first match) moves the cursor to that break
end and rescans; otherwise the slot is emitted unconditionally and the
cursor advances by the duration. Fuel indexed as for slotLoop. -/
def schedLoop (dur endM : Int) (brs : List (Nat × Nat)) : Nat → Int → Option (List Int)
  | 0, _ => none
  | fuel + 1, t =>
    if t < endM then
      match brs.find? (fun p => decide ((p.1 : Int) ≤ t) && decide (t < (p.2 : Int))) with
      | some p => schedLoop dur endM brs fuel (p.2 : Int)
      | none => (schedLoop dur endM brs fuel (t + dur)).map (fun l => t :: l)
    else some []

/-- Fuel bounding the schedule.py inner loop when every step progresses. -/
def schedFuel (startM endM : Int) : Nat := (endM - startM).toNat + 1

/-- The day loop of schedule.py lines 232 to 265 over a list of day
offsets: a day whose weekday is not enabled is skipped, otherwise the
inner loop runs from the start time and its slots carry the date of the
processed day (times are formatted from plain minute counters here, so no
date shift can occur). -/
def schedDaysLoop (ds : List Nat) (dur endM : Int) (brs : List (Nat × Nat))
    (today : Nat) (startM : Int) : List Nat → GenResult (List Slot)
  | [] => .ok []
  | off :: rest =>
    if (today + off) % 7 ∈ ds then
      match schedLoop dur endM brs (schedFuel startM endM) startM with
      | none => .hang
      | some ts =>
        match schedDaysLoop ds dur endM brs today startM rest with
        | .ok r => .ok (ts.map (fun t => Slot.mk ((today + off : Nat) : Int) t "available") ++ r)
        | .crash => .crash
        | .hang => .hang
    else schedDaysLoop ds dur endM brs today startM rest

/-- handler.generate_slots of schedule.py lines 189 to 267: recognised
day names are collected (an empty result raises ValueError), the times
and duration are parsed with their 09:00, 17:00 and 30 minute fallbacks,
the breaks are parsed, then the horizon of numDays day offsets runs. -/
def sched_generate_slots (σ : SchedRaw) (today numDays : Nat) : GenResult (List Slot) :=
  let ds := schedDays σ
  if ds.isEmpty then .crash
  else
    match σ.start_time with
    | .bad => .crash
    | st =>
      match σ.end_time with
      | .bad => .crash
      | en =>
        match σ.duration with
        | .bad => .crash
        | du =>
          match schedParseBreaks σ.breaks with
          | .crash => .crash
          | .hang => .hang
          | .ok brs =>
            let s := match st with | .val p => p | _ => (9, 0)
            let e := match en with | .val p => p | _ => (17, 0)
            let d : Int := match du with | .val v => v | _ => 30
            schedDaysLoop ds d ((e.1 * 60 + e.2 : Nat) : Int) brs today
              ((s.1 * 60 + s.2 : Nat) : Int) (List.range numDays)

/-!
The availability persistence operations of supabase_client.py, modelled
on an explicit table state: the availability table is a list of rows, the
supabase query builder chains of eq filters are successive list filters,
delete removes the matching rows and insert appends.
-/

/-- One row of the availability table. -/
structure AvailRow where
  doctor_id : String
  date : String
  time : String
  status : String
  deriving DecidableEq

/-- One slot dictionary passed to save_availability; the status key may
be absent (slot.get with the available fallback, line 350). -/
structure SlotIn where
  date : String
  time : String
  status : Option String
  deriving DecidableEq

/-- One slot dictionary returned by get_availability (lines 400 to 406). -/
structure SlotOut where
  date : String
  time : String
  status : String
  deriving DecidableEq

/-- clear_availability (supabase_client.py lines 369 to 379): delete
every row of the doctor. -/
def clear_availability (tbl : List AvailRow) (d : String) : List AvailRow :=
  tbl.filter (fun r => !(r.doctor_id == d))

/-- The row built from one input slot (supabase_client.py lines 345 to 351). -/
def rowOfSlot (d : String) (s : SlotIn) : AvailRow :=
  ⟨d, s.date, s.time, s.status.getD "available"⟩

/-- save_availability (supabase_client.py lines 327 to 361): clear the
rows of the doctor, then batch insert the given slots. -/
def save_availability (tbl : List AvailRow) (d : String) (slots : List SlotIn) :
    List AvailRow :=
  clear_availability tbl d ++ slots.map (rowOfSlot d)

/-- get_availability (supabase_client.py lines 381 to 412): select the
rows of the doctor with status available, optionally filtered by date,
projected to slot dictionaries. -/
def get_availability (tbl : List AvailRow) (d : String) (dateF : Option String) :
    List SlotOut :=
  ((((tbl.filter (fun r => r.doctor_id == d)).filter
      (fun r => r.status == "available")).filter
      (fun r => match dateF with | some dt => r.date == dt | none => true)).map
      (fun r => ⟨r.date, r.time, r.status⟩))

/-- The pre booking re check of index.py lines 741 to 747. -/
def slot_available (tbl : List AvailRow) (d date time : String) : Bool :=
  (get_availability tbl d (some date)).any
    (fun s => s.date == date && s.time == time && s.status == "available")

/-!
Auxiliary definitions used by the statements: clamping of the default
rule, the same schedule with a replaced default days list, and concrete
schedule structures for counterexamples and witnesses.
-/

/-- A blocked_dates entry survives normalization when it contributes a
genuine date: garbage strings contribute nothing that a strftime value
can match, unparsable range records are skipped by the code. -/
def keepEntry : BlockedEntry → Bool
  | .bare (.valid _) => true
  | .dateRec (.valid _) => true
  | .rangeRec (some _) (some _) => true
  | _ => false

/-- A blocked_date_ranges entry survives when both bounds parse. -/
def keepRange (p : Option Nat × Option Nat) : Bool := p.1.isSome && p.2.isSome

/-- The schedule with its default rule clamped to the values the code
falls back to, and its unusable blocked entries dropped. -/
def normalizeDefault (σ : RawSchedule) : RawSchedule :=
  ⟨⟨σ.dflt.days, RawField.val (defaultStart σ), RawField.val (defaultEnd σ),
    RawField.val (defaultDuration σ), RawField.val (defaultBreaks σ)⟩,
    σ.overrides, σ.blocked_dates.filter keepEntry, σ.blocked_ranges.filter keepRange⟩

/-- The schedule with its default days list replaced. -/
def withDays (σ : RawSchedule) (ds : List String) : RawSchedule :=
  ⟨⟨ds, σ.dflt.start_time, σ.dflt.end_time, σ.dflt.duration, σ.dflt.breaks⟩,
    σ.overrides, σ.blocked_dates, σ.blocked_ranges⟩

/-- Mondays 09:00 to 10:00 with 30 minute slots, nothing else. -/
def exMon : RawSchedule :=
  ⟨⟨["Monday"], .val 540, .val 600, .val 30, .val []⟩, [], [], []⟩

/-- Mondays 09:00 to 12:00 with 30 minute slots and a 10:00 to 11:00
lunch break. -/
def exMonBreak : RawSchedule :=
  ⟨⟨["Monday"], .val 540, .val 720, .val 30, .val [⟨.val 600, .val 660⟩]⟩, [], [], []⟩

/-- Saturdays 09:00 to 09:30, used to reach the last horizon day. -/
def exSat : RawSchedule :=
  ⟨⟨["Saturday"], .val 540, .val 570, .val 30, .val []⟩, [], [], []⟩

/-- Day zero is blocked although Monday carries an override. -/
def exBlocked : RawSchedule :=
  ⟨⟨["Monday"], .val 540, .val 600, .val 30, .val []⟩,
    [⟨some "Monday", .val 540, .val 600, .val 30, some []⟩], [.bare (.valid 0)], []⟩

/-- A Saturday override while the default days list excludes Saturday. -/
def exSatOverride : RawSchedule :=
  ⟨⟨["Monday"], .val 540, .val 600, .val 30, .val []⟩,
    [⟨some "Saturday", .val 480, .val 510, .val 30, some []⟩], [], []⟩

/-- A default rule with a lunch break and a Monday override that omits
its breaks field. -/
def exNoInherit : RawSchedule :=
  ⟨⟨[], .val 540, .val 1020, .val 30, .val [⟨.val 720, .val 780⟩]⟩,
    [⟨some "Monday", .val 540, .val 1020, .absent, none⟩], [], []⟩

/-- A Monday override with a zero slot duration: the inner loop emits the
same cursor forever. -/
def exZeroDur : RawSchedule :=
  ⟨⟨[], .val 540, .val 1020, .val 30, .val []⟩,
    [⟨some "Monday", .val 540, .val 1020, .val 0, some []⟩], [], []⟩

/-- A default rule whose break list holds an unparsable end field. -/
def exBadBreak : RawSchedule :=
  ⟨⟨["Monday"], .val 540, .val 1020, .val 30, .val [⟨.val 720, .bad⟩]⟩, [], [], []⟩

/-- A default rule with an unusable start_time, as in the scenario where
start_time is the unparsable string 9. -/
def exBadStart : RawSchedule :=
  ⟨⟨["Monday"], .bad, .val 1020, .val 30, .val []⟩, [], [], []⟩

/-- A Monday override with duration minus 1000 minutes: the cursor walks
backwards through midnight, the emitted times go 16:40 then 00:00, and
the run still terminates because the wrapped slot end eventually overlaps
the break and the jump lands past the end of day. -/
def exNegDur : RawSchedule :=
  ⟨⟨[], .val 540, .val 1020, .val 30, .val []⟩,
    [⟨some "Monday", .val 1000, .val 1100, .val (-1000), some [⟨.val 800, .val 1200⟩]⟩],
    [], []⟩

/-- Schedule variant input: Mondays 09:00 to 10:40 with 60 minute slots;
the final slot starts at 10:00 and runs past the end of day. -/
def exSchedOverrun : SchedRaw :=
  ⟨["Monday"], .val (9, 0), .val (10, 40), .val 60, []⟩

/-- Schedule variant input: Mondays 09:30 to 12:00 with 60 minute slots
and a 10:00 to 11:00 break; the 09:30 slot overlaps the break yet is
emitted because only its start is tested. -/
def exSchedOverlap : SchedRaw :=
  ⟨["Monday"], .val (9, 30), .val (12, 0), .val 60, [(.val (10, 0), .val (11, 0))]⟩

/-- A three row availability table over two doctors. -/
def exTable : List AvailRow :=
  [⟨"dr-a", "2026-01-05", "09:00", "available"⟩,
    ⟨"dr-a", "2026-01-05", "09:30", "booked"⟩,
    ⟨"dr-b", "2026-01-05", "09:00", "available"⟩]

/-!
Lemmas about the inner slot loop of index.py.
-/

theorem lastMem {α : Type} {l : List α} {a : α} (h : l.getLast? = some a) : a ∈ l := by
  have h1 : a ∈ l.getLast? := h ▸ rfl
  obtain ⟨hh, rfl⟩ := List.mem_getLast?_eq_getLast h1
  exact List.getLast_mem hh

theorem overlapB_true_iff {t tEnd : Int} {p : Nat × Nat} :
    overlapB t tEnd p = true ↔ t.emod 1440 < (p.2 : Int) ∧ (p.1 : Int) < tEnd.emod 1440 := by
  simp [overlapB, Int.not_le]

theorem emod_eq_self {a b : Int} (h0 : 0 ≤ a) (h1 : a < b) : a.emod b = a :=
  Int.emod_eq_of_lt h0 h1

theorem ediv_eq_zero {a b : Int} (h0 : 0 ≤ a) (h1 : a < b) : a.ediv b = 0 :=
  Int.ediv_eq_zero_of_lt h0 h1

theorem findBreak_mem {brs : List (Nat × Nat)} {t tEnd : Int} {be : Nat}
    (h : findBreak brs t tEnd = some be) :
    ∃ p, p ∈ brs ∧ p.2 = be ∧ overlapB t tEnd p = true := by
  unfold findBreak at h
  cases hfind : brs.find? (overlapB t tEnd) with
  | none => rw [hfind] at h; cases h
  | some p =>
    rw [hfind] at h
    refine ⟨p, List.mem_of_find?_eq_some hfind, ?_, List.find?_some hfind⟩
    simpa using h

theorem findBreak_none {brs : List (Nat × Nat)} {t tEnd : Int}
    (h : findBreak brs t tEnd = none) : ∀ p ∈ brs, overlapB t tEnd p = false := by
  unfold findBreak at h
  cases hfind : brs.find? (overlapB t tEnd) with
  | none =>
    intro p hp
    have := List.find?_eq_none.mp hfind p hp
    simpa using this
  | some p => rw [hfind] at h; cases h

theorem slotLoop_ok_spec {dur endT : Int} {brs : List (Nat × Nat)}
    (hd : 1 ≤ dur) (hend : endT < 1440)
    (hbrs : ∀ p ∈ brs, (p.2 : Int) < 1440) :
    ∀ fuel : Nat, ∀ t : Int, ∀ l : List Int, 0 ≤ t → t < 1440 →
      slotLoop dur endT brs fuel t = some l →
      List.Pairwise (fun a b : Int => a < b) l ∧
        ∀ x ∈ l, t ≤ x ∧ 0 ≤ x ∧ x < 1440 ∧ x + dur ≤ endT ∧
          findBreak brs x (x + dur) = none := by
  intro fuel
  induction fuel with
  | zero => intro t l _ _ h; cases h
  | succ n ih =>
    intro t l ht0 ht1 h
    rw [slotLoop] at h
    by_cases hlt : t < endT
    · rw [if_pos hlt] at h
      by_cases hov : t + dur > endT
      · rw [if_pos hov] at h
        cases h
        exact ⟨List.Pairwise.nil, by simp⟩
      · rw [if_neg hov] at h
        cases hfb : findBreak brs t (t + dur) with
        | some be =>
          rw [hfb] at h
          obtain ⟨p, hpmem, hpe, hov2⟩ := findBreak_mem hfb
          have hbe1440 : ((be : Nat) : Int) < 1440 := hpe ▸ hbrs p hpmem
          obtain ⟨hpw, hall⟩ := ih (be : Int) l (Int.natCast_nonneg be) hbe1440 h
          have htb : t < (be : Int) := by
            have h1 := (overlapB_true_iff.mp hov2).1
            rwa [emod_eq_self ht0 ht1, hpe] at h1
          refine ⟨hpw, fun x hx => ?_⟩
          obtain ⟨hbex, hrest⟩ := hall x hx
          exact ⟨le_of_lt (lt_of_lt_of_le htb hbex), hrest⟩
        | none =>
          rw [hfb] at h
          cases hrec : slotLoop dur endT brs n (t + dur) with
          | none => rw [hrec] at h; cases h
          | some ltl =>
            rw [hrec] at h
            cases h
            obtain ⟨hpw, hall⟩ := ih (t + dur) ltl (by omega) (by omega) hrec
            constructor
            · exact List.pairwise_cons.mpr
                ⟨fun x hx => by have := (hall x hx).1; omega, hpw⟩
            · intro x hx
              rcases List.mem_cons.mp hx with rfl | hx2
              · exact ⟨le_refl x, ht0, ht1, by omega, hfb⟩
              · obtain ⟨h1, h2, h3, h4, h5⟩ := hall x hx2
                exact ⟨by omega, h2, h3, h4, h5⟩
    · rw [if_neg hlt] at h
      cases h
      exact ⟨List.Pairwise.nil, by simp⟩

theorem slotLoop_fuel {dur endT : Int} {brs : List (Nat × Nat)}
    (hd : 1 ≤ dur) (hend : endT < 1440) :
    ∀ fuel : Nat, ∀ t : Int, 0 ≤ t → (endT - t).toNat < fuel →
      ∃ l, slotLoop dur endT brs fuel t = some l := by
  intro fuel
  induction fuel with
  | zero => intro t _ h; omega
  | succ n ih =>
    intro t ht0 hf
    rw [slotLoop]
    by_cases hlt : t < endT
    · rw [if_pos hlt]
      by_cases hov : t + dur > endT
      · rw [if_pos hov]; exact ⟨[], rfl⟩
      · rw [if_neg hov]
        cases hfb : findBreak brs t (t + dur) with
        | some be =>
          apply ih (be : Int) (Int.natCast_nonneg be)
          obtain ⟨p, hpmem, hpe, hov2⟩ := findBreak_mem hfb
          have htb : t < (be : Int) := by
            have h1 := (overlapB_true_iff.mp hov2).1
            rwa [emod_eq_self ht0 (lt_trans hlt hend), hpe] at h1
          omega
        | none =>
          obtain ⟨l, hl⟩ := ih (t + dur) (by omega) (by omega)
          exact ⟨t :: l, by rw [hl]; rfl⟩
    · rw [if_neg hlt]; exact ⟨[], rfl⟩

theorem mkSlot_eq {c : Int} (d : Nat) (h0 : 0 ≤ c) (h1 : c < 1440) :
    mkSlot d c = ⟨(d : Int), c, "available"⟩ := by
  unfold mkSlot
  rw [ediv_eq_zero h0 h1, emod_eq_self h0 h1, add_zero]

/-!
Lemmas about rule selection and break parsing.
-/

theorem defaultDuration_ge5 (σ : RawSchedule) : 5 ≤ defaultDuration σ := by
  unfold defaultDuration
  rcases σ.dflt.duration with _ | _ | v
  · norm_num
  · norm_num
  · dsimp only
    split <;> omega

theorem dayOverride_mem {σ : RawSchedule} {name : String} {o : RawOverride}
    (h : dayOverride σ name = some o) : o ∈ σ.overrides :=
  List.mem_of_mem_filter (lastMem h)

theorem selectRule_ok_inv {σ : RawSchedule} {date : Nat} {r : EffRule}
    (h : selectRule σ date = .ok (some r)) :
    (∃ o, dayOverride σ (weekdayName (date % 7)) = some o ∧ r = overrideRule σ o) ∨
      (date % 7 ∈ defaultDays σ ∧ r = defaultRule σ) := by
  unfold selectRule at h
  by_cases hb : fmtDate date ∈ resolvedBlocked σ
  · rw [if_pos hb] at h
    cases h
  · rw [if_neg hb] at h
    cases hov : dayOverride σ (weekdayName (date % 7)) with
    | some o =>
      rw [hov] at h
      dsimp only at h
      by_cases hbad : o.start_time = RawField.bad ∨ o.end_time = RawField.bad
      · rw [if_pos hbad] at h
        cases h
      · rw [if_neg hbad] at h
        cases h
        exact Or.inl ⟨o, rfl, rfl⟩
    | none =>
      rw [hov] at h
      dsimp only at h
      by_cases hmem : date % 7 ∈ defaultDays σ
      · rw [if_pos hmem] at h
        cases h
        exact Or.inr ⟨hmem, rfl⟩
      · rw [if_neg hmem] at h
        cases h

theorem wf_override {σ : RawSchedule} {o : RawOverride}
    (hwf : wfSchedule σ = true) (ho : o ∈ σ.overrides) :
    wfTime o.start_time = true ∧ wfTime o.end_time = true ∧
      ∀ b ∈ o.breaks.getD [], wfBreak b = true := by
  unfold wfSchedule at hwf
  simp only [Bool.and_eq_true, List.all_eq_true] at hwf
  obtain ⟨-, h2⟩ := hwf
  have := h2 o ho
  simp only [Bool.and_eq_true, List.all_eq_true] at this
  exact ⟨this.1.1, this.1.2, this.2⟩

theorem wfTime_lt {f : RawField Nat} {dflt : Nat} (hw : wfTime f = true)
    (hdflt : dflt < 1440) : fallbackTime f dflt < 1440 := by
  unfold fallbackTime
  rcases f with _ | _ | v
  · exact hdflt
  · exact hdflt
  · simpa [wfTime] using hw

theorem defaultStart_lt (σ : RawSchedule) (hs : wfTime σ.dflt.start_time = true) :
    defaultStart σ < 1440 := by
  unfold defaultStart
  rcases hst : σ.dflt.start_time with _ | _ | v <;> rw [hst] at hs <;> dsimp only
  · norm_num
  · norm_num
  · simpa [wfTime] using hs

theorem defaultEnd_lt (σ : RawSchedule) (hs : wfTime σ.dflt.end_time = true) :
    defaultEnd σ < 1440 := by
  unfold defaultEnd
  rcases hst : σ.dflt.end_time with _ | _ | v <;> rw [hst] at hs <;> dsimp only
  · norm_num
  · norm_num
  · simpa [wfTime] using hs

theorem defaultBreaks_wf (σ : RawSchedule) (hs : wfBreaksF σ.dflt.breaks = true) :
    ∀ b ∈ defaultBreaks σ, wfBreak b = true := by
  unfold defaultBreaks
  rcases hst : σ.dflt.breaks with _ | _ | l <;> rw [hst] at hs <;> dsimp only
  · simp
  · simp
  · unfold wfBreaksF at hs
    simpa [List.all_eq_true] using hs

theorem selectRule_wf {σ : RawSchedule} {date : Nat} {r : EffRule}
    (hwf : wfSchedule σ = true) (h : selectRule σ date = .ok (some r)) :
    r.start < 1440 ∧ r.stop < 1440 ∧ ∀ b ∈ r.breaks, wfBreak b = true := by
  rcases selectRule_ok_inv h with ⟨o, hov, rfl⟩ | ⟨-, rfl⟩
  · obtain ⟨h1, h2, h3⟩ := wf_override hwf (dayOverride_mem hov)
    exact ⟨wfTime_lt h1 (by norm_num), wfTime_lt h2 (by norm_num), h3⟩
  · unfold wfSchedule at hwf
    simp only [Bool.and_eq_true, List.all_eq_true] at hwf
    obtain ⟨⟨⟨hs, he⟩, hb⟩, -⟩ := hwf
    exact ⟨defaultStart_lt σ hs, defaultEnd_lt σ he, defaultBreaks_wf σ hb⟩

theorem selectRule_pos {σ : RawSchedule} {date : Nat} {r : EffRule} {d : Int}
    (hpos : posDurations σ = true) (h : selectRule σ date = .ok (some r))
    (hd : r.duration = RawField.val d) : 1 ≤ d := by
  rcases selectRule_ok_inv h with ⟨o, hov, rfl⟩ | ⟨-, rfl⟩
  · unfold posDurations at hpos
    simp only [List.all_eq_true] at hpos
    have ho := hpos o (dayOverride_mem hov)
    unfold overrideRule overrideDur at hd
    dsimp only at hd
    rcases hdur : o.duration with _ | _ | v
    · rw [hdur] at hd
      dsimp only at hd
      cases hd
      have := defaultDuration_ge5 σ
      omega
    · rw [hdur] at hd
      cases hd
    · rw [hdur] at hd
      dsimp only at hd
      cases hd
      rw [hdur] at ho
      simpa using ho
  · unfold defaultRule at hd
    dsimp only at hd
    cases hd
    have := defaultDuration_ge5 σ
    omega

theorem parseBreaks_wf : ∀ {l : List RawBreak} {brs : List (Nat × Nat)},
    (∀ b ∈ l, wfBreak b = true) → parseBreaks l = some brs →
    ∀ p ∈ brs, (p.2 : Int) < 1440 := by
  intro l
  induction l with
  | nil =>
    intro brs _ h p hp
    cases h
    cases hp
  | cons b rest ih =>
    intro brs hb h p hp
    rw [parseBreaks] at h
    cases hpb : parseBreak b with
    | none => rw [hpb] at h; cases h
    | some q =>
      rw [hpb] at h
      cases hrest : parseBreaks rest with
      | none => rw [hrest] at h; cases h
      | some brs2 =>
        rw [hrest] at h
        cases h
        rcases List.mem_cons.mp hp with rfl | hp2
        · have hwb := hb b (List.mem_cons_self b rest)
          unfold parseBreak at hpb
          rcases b with ⟨bs, be⟩
          rcases bs with _ | _ | vs <;> rcases be with _ | _ | ve <;> cases hpb
          unfold wfBreak wfTime at hwb
          simp only [Bool.and_eq_true, decide_eq_true_eq] at hwb
          exact_mod_cast hwb.2
        · exact ih (fun x hx => hb x (List.mem_cons_of_mem b hx)) hrest p hp2

theorem parseBreaks_total : ∀ {l : List RawBreak},
    (∀ b ∈ l, b.start.isVal = true ∧ b.stop.isVal = true) →
    ∃ brs, parseBreaks l = some brs := by
  intro l
  induction l with
  | nil => exact fun _ => ⟨[], rfl⟩
  | cons b rest ih =>
    intro hb
    obtain ⟨hs, he⟩ := hb b (List.mem_cons_self b rest)
    obtain ⟨brs, hbrs⟩ := ih (fun x hx => hb x (List.mem_cons_of_mem b hx))
    rcases b with ⟨bs, be⟩
    rcases bs with _ | _ | vs
    · cases hs
    · cases hs
    · rcases be with _ | _ | ve
      · cases he
      · cases he
      · exact ⟨(vs, ve) :: brs, by rw [parseBreaks, parseBreak, hbrs]; rfl⟩

/-!
Lemmas about one day of the horizon and about the date loop.
-/

theorem findBreak_none_claim {brs : List (Nat × Nat)} {x d : Int}
    (h0 : 0 ≤ x) (h1 : x < 1440) (hxd0 : 0 ≤ x + d) (hxd1 : x + d < 1440)
    (h : findBreak brs x (x + d) = none) :
    ∀ p ∈ brs, ¬(x < (p.2 : Int) ∧ (p.1 : Int) < x + d) := by
  intro p hp hc
  have hov := findBreak_none h p hp
  have htrue : overlapB x (x + d) p = true := by
    rw [overlapB_true_iff, emod_eq_self h0 h1, emod_eq_self hxd0 hxd1]
    exact hc
  rw [htrue] at hov
  cases hov

theorem dayProcess_ok_spec {σ : RawSchedule} {today i : Nat} {l : List Slot}
    (hwf : wfSchedule σ = true) (hpos : posDurations σ = true)
    (h : dayProcessF none σ today i = .ok l) :
    List.Pairwise (fun a b : Slot => a.time < b.time) l ∧
      ∀ s ∈ l, s.date = ((today + i : Nat) : Int) ∧ s.status = "available" ∧
        ∃ r brs d, selectRule σ (today + i) = .ok (some r) ∧
          r.duration = RawField.val d ∧ 1 ≤ d ∧ parseBreaks r.breaks = some brs ∧
          0 ≤ s.time ∧ s.time + d ≤ (r.stop : Int) ∧
          ∀ p ∈ brs, ¬(s.time < (p.2 : Int) ∧ (p.1 : Int) < s.time + d) := by
  unfold dayProcessF at h
  dsimp only at h
  cases hsel : selectRule σ (today + i) with
  | crash => rw [hsel] at h; cases h
  | hang => rw [hsel] at h; cases h
  | ok ro =>
    rw [hsel] at h
    cases ro with
    | none =>
      dsimp only at h
      cases h
      exact ⟨List.Pairwise.nil, by simp⟩
    | some r =>
      dsimp only at h
      cases hpb : parseBreaks r.breaks with
      | none => rw [hpb] at h; cases h
      | some brs =>
        rw [hpb] at h
        dsimp only at h
        cases hdur : r.duration with
        | absent => rw [hdur] at h; cases h
        | bad => rw [hdur] at h; cases h
        | val d =>
          rw [hdur] at h
          dsimp only at h
          have hd1 : 1 ≤ d := selectRule_pos hpos hsel hdur
          obtain ⟨hstw, hstop, hbw⟩ := selectRule_wf hwf hsel
          have hend : (r.stop : Int) < 1440 := by exact_mod_cast hstop
          have hbrs : ∀ p ∈ brs, (p.2 : Int) < 1440 := parseBreaks_wf hbw hpb
          cases hloop : slotLoop d (r.stop : Int) brs
              ((none : Option Nat).getD (dayFuel r.start r.stop)) (r.start : Int) with
          | none => rw [hloop] at h; cases h
          | some ts =>
            rw [hloop] at h
            cases h
            obtain ⟨hpw, hall⟩ := slotLoop_ok_spec hd1 hend hbrs _ _ ts
              (Int.natCast_nonneg r.start) (by exact_mod_cast hstw) hloop
            constructor
            · rw [List.pairwise_map]
              refine hpw.imp_of_mem ?_
              intro a b ha hb hab
              obtain ⟨-, ha0, ha1, -, -⟩ := hall a ha
              obtain ⟨-, hb0, hb1, -, -⟩ := hall b hb
              rw [mkSlot_eq (today + i) ha0 ha1, mkSlot_eq (today + i) hb0 hb1]
              exact hab
            · intro s hs
              obtain ⟨x, hx, rfl⟩ := List.mem_map.mp hs
              obtain ⟨-, hx0, hx1, hxle, hxfb⟩ := hall x hx
              rw [mkSlot_eq (today + i) hx0 hx1]
              dsimp only
              refine ⟨rfl, rfl, r, brs, d, rfl, hdur, hd1, hpb, hx0, hxle, ?_⟩
              exact findBreak_none_claim hx0 hx1 (by omega) (by omega) hxfb

theorem genDays_ok_cons_inv {f : Option Nat} {σ : RawSchedule} {today i : Nat}
    {rest : List Nat} {L : List Slot}
    (h : genDaysF f σ today (i :: rest) = .ok L) :
    ∃ li lr, dayProcessF f σ today i = .ok li ∧ genDaysF f σ today rest = .ok lr ∧
      L = li ++ lr := by
  rw [genDaysF] at h
  cases hd : dayProcessF f σ today i with
  | crash => rw [hd] at h; cases h
  | hang => rw [hd] at h; cases h
  | ok li =>
    rw [hd] at h
    dsimp only at h
    cases hr : genDaysF f σ today rest with
    | crash => rw [hr] at h; cases h
    | hang => rw [hr] at h; cases h
    | ok lr =>
      rw [hr] at h
      dsimp only at h
      cases h
      exact ⟨li, lr, rfl, rfl, rfl⟩

theorem genDays_mem {f : Option Nat} {σ : RawSchedule} {today : Nat} :
    ∀ {is : List Nat} {L : List Slot}, genDaysF f σ today is = .ok L →
      ∀ s, s ∈ L ↔ ∃ i ∈ is, ∃ li, dayProcessF f σ today i = .ok li ∧ s ∈ li := by
  intro is
  induction is with
  | nil =>
    intro L h s
    rw [genDaysF] at h
    cases h
    simp
  | cons i rest ih =>
    intro L h s
    obtain ⟨li, lr, hd, hr, rfl⟩ := genDays_ok_cons_inv h
    constructor
    · intro hs
      rcases List.mem_append.mp hs with hs1 | hs2
      · exact ⟨i, List.mem_cons_self i rest, li, hd, hs1⟩
      · obtain ⟨j, hj, lj, hdj, hsj⟩ := (ih hr s).mp hs2
        exact ⟨j, List.mem_cons_of_mem i hj, lj, hdj, hsj⟩
    · rintro ⟨j, hj, lj, hdj, hsj⟩
      rcases List.mem_cons.mp hj with rfl | hj2
      · rw [hd] at hdj
        cases hdj
        exact List.mem_append.mpr (Or.inl hsj)
      · exact List.mem_append.mpr (Or.inr ((ih hr s).mpr ⟨j, hj2, lj, hdj, hsj⟩))

theorem pairwise_slotLt_of_const_date {l : List Slot} {D : Int}
    (hd : ∀ s ∈ l, s.date = D)
    (hp : List.Pairwise (fun a b : Slot => a.time < b.time) l) :
    List.Pairwise slotLt l := by
  refine hp.imp_of_mem ?_
  intro a b ha hb hab
  exact Or.inr ⟨(hd a ha).trans (hd b hb).symm, hab⟩

theorem genDays_sorted {σ : RawSchedule} {today : Nat}
    (hwf : wfSchedule σ = true) (hpos : posDurations σ = true) :
    ∀ {is : List Nat}, List.Pairwise (fun a b : Nat => a < b) is →
      ∀ {L : List Slot}, genDaysF none σ today is = .ok L →
        List.Pairwise slotLt L := by
  intro is
  induction is with
  | nil =>
    intro _ L h
    rw [genDaysF] at h
    cases h
    exact List.Pairwise.nil
  | cons i rest ih =>
    intro hpw L h
    obtain ⟨li, lr, hd, hr, rfl⟩ := genDays_ok_cons_inv h
    obtain ⟨hpi, hfacts⟩ := dayProcess_ok_spec hwf hpos hd
    rw [List.pairwise_append]
    refine ⟨pairwise_slotLt_of_const_date (fun s hs => (hfacts s hs).1) hpi,
      ih (List.pairwise_cons.mp hpw).2 hr, ?_⟩
    intro a ha b hb
    have hda := (hfacts a ha).1
    obtain ⟨j, hj, lj, hdj, hbj⟩ := (genDays_mem hr b).mp hb
    have hdb := ((dayProcess_ok_spec hwf hpos hdj).2 b hbj).1
    have hij : i < j := (List.pairwise_cons.mp hpw).1 j hj
    left
    rw [hda, hdb]
    exact_mod_cast Nat.add_lt_add_left hij today

theorem selectRule_total {σ : RawSchedule} (date : Nat)
    (hnb : noBadFields σ = true) : ∃ x, selectRule σ date = .ok x := by
  unfold selectRule
  by_cases hb : fmtDate date ∈ resolvedBlocked σ
  · rw [if_pos hb]
    exact ⟨none, rfl⟩
  · rw [if_neg hb]
    cases hov : dayOverride σ (weekdayName (date % 7)) with
    | some o =>
      dsimp only
      have ho := dayOverride_mem hov
      unfold noBadFields at hnb
      simp only [Bool.and_eq_true, List.all_eq_true] at hnb
      obtain ⟨-, h2⟩ := hnb
      obtain ⟨⟨⟨hs, he⟩, -⟩, -⟩ := h2 o ho
      rw [if_neg]
      · exact ⟨some (overrideRule σ o), rfl⟩
      · rintro (hc | hc)
        · rw [hc] at hs
          simp at hs
        · rw [hc] at he
          simp at he
    | none =>
      dsimp only
      by_cases hmem : date % 7 ∈ defaultDays σ
      · rw [if_pos hmem]
        exact ⟨some (defaultRule σ), rfl⟩
      · rw [if_neg hmem]
        exact ⟨none, rfl⟩

theorem selectRule_nobad {σ : RawSchedule} {date : Nat} {r : EffRule}
    (hnb : noBadFields σ = true) (h : selectRule σ date = .ok (some r)) :
    (∀ b ∈ r.breaks, b.start.isVal = true ∧ b.stop.isVal = true) ∧
      ∃ d, r.duration = RawField.val d := by
  unfold noBadFields at hnb
  simp only [Bool.and_eq_true, List.all_eq_true] at hnb
  obtain ⟨h1, h2⟩ := hnb
  rcases selectRule_ok_inv h with ⟨o, hov, rfl⟩ | ⟨-, rfl⟩
  · obtain ⟨⟨⟨-, -⟩, hdur⟩, hbrk⟩ := h2 o (dayOverride_mem hov)
    constructor
    · intro b hb
      have := hbrk b hb
      simp only [Bool.and_eq_true] at this
      exact this
    · unfold overrideRule overrideDur
      dsimp only
      rcases hod : o.duration with _ | _ | v
      · exact ⟨defaultDuration σ, rfl⟩
      · rw [hod] at hdur
        simp at hdur
      · exact ⟨v, rfl⟩
  · constructor
    · intro b hb
      have := h1 b hb
      simp only [Bool.and_eq_true] at this
      exact this
    · exact ⟨defaultDuration σ, rfl⟩

theorem dayProcess_total {σ : RawSchedule} (today i : Nat)
    (hwf : wfSchedule σ = true) (hpos : posDurations σ = true)
    (hnb : noBadFields σ = true) :
    ∃ l, dayProcessF none σ today i = .ok l := by
  unfold dayProcessF
  dsimp only
  obtain ⟨ro, hsel⟩ := selectRule_total (today + i) hnb
  rw [hsel]
  cases ro with
  | none => exact ⟨[], rfl⟩
  | some r =>
    dsimp only
    obtain ⟨hbrk, d, hdur⟩ := selectRule_nobad hnb hsel
    obtain ⟨brs, hpb⟩ := parseBreaks_total hbrk
    rw [hpb]
    dsimp only
    rw [hdur]
    dsimp only
    have hd1 : 1 ≤ d := selectRule_pos hpos hsel hdur
    obtain ⟨hstw, hstop, hbw⟩ := selectRule_wf hwf hsel
    have hend2 : ((r.stop : Nat) : Int) < 1440 := by exact_mod_cast hstop
    have hfuel : (((r.stop : Nat) : Int) - ((r.start : Nat) : Int)).toNat <
        dayFuel r.start r.stop := by
      unfold dayFuel
      rw [Int.toNat_sub]
      omega
    obtain ⟨ts, hts⟩ := @slotLoop_fuel d ((r.stop : Nat) : Int) brs hd1 hend2
      (dayFuel r.start r.stop) ((r.start : Nat) : Int) (Int.natCast_nonneg r.start) hfuel
    rw [Option.getD_none, hts]
    exact ⟨ts.map (mkSlot (today + i)), rfl⟩

theorem genDays_total {σ : RawSchedule} {today : Nat} :
    ∀ {is : List Nat}, (∀ i ∈ is, ∃ l, dayProcessF none σ today i = .ok l) →
      ∃ L, genDaysF none σ today is = .ok L := by
  intro is
  induction is with
  | nil => exact fun _ => ⟨[], rfl⟩
  | cons i rest ih =>
    intro hall
    obtain ⟨li, hi⟩ := hall i (List.mem_cons_self i rest)
    obtain ⟨lr, hr⟩ := ih (fun j hj => hall j (List.mem_cons_of_mem i hj))
    exact ⟨li ++ lr, by rw [genDaysF, hi, hr]⟩

/-!
Lemmas about clamping of the default rule (normalization).
-/

theorem defaultStart_norm (σ : RawSchedule) :
    defaultStart (normalizeDefault σ) = defaultStart σ := rfl

theorem defaultEnd_norm (σ : RawSchedule) :
    defaultEnd (normalizeDefault σ) = defaultEnd σ := rfl

theorem defaultBreaks_norm (σ : RawSchedule) :
    defaultBreaks (normalizeDefault σ) = defaultBreaks σ := rfl

theorem defaultDays_norm (σ : RawSchedule) :
    defaultDays (normalizeDefault σ) = defaultDays σ := rfl

theorem dayOverride_norm (σ : RawSchedule) (n : String) :
    dayOverride (normalizeDefault σ) n = dayOverride σ n := rfl

theorem defaultDuration_norm (σ : RawSchedule) :
    defaultDuration (normalizeDefault σ) = defaultDuration σ := by
  have h5 := defaultDuration_ge5 σ
  show (if defaultDuration σ < 5 then (30 : Int) else defaultDuration σ) = defaultDuration σ
  rw [if_neg (by omega)]

theorem overrideDur_norm (σ : RawSchedule) (o : RawOverride) :
    overrideDur (normalizeDefault σ) o = overrideDur σ o := by
  unfold overrideDur
  rw [defaultDuration_norm]

theorem overrideRule_norm (σ : RawSchedule) (o : RawOverride) :
    overrideRule (normalizeDefault σ) o = overrideRule σ o := by
  unfold overrideRule
  rw [overrideDur_norm]

theorem defaultRule_norm (σ : RawSchedule) :
    defaultRule (normalizeDefault σ) = defaultRule σ := by
  unfold defaultRule
  rw [defaultStart_norm, defaultEnd_norm, defaultDuration_norm, defaultBreaks_norm]

theorem keep_of_valid_mem_entry {e : BlockedEntry} {d : Nat}
    (h : DStr.valid d ∈ blockedOfEntry e) : keepEntry e = true := by
  cases e with
  | bare s =>
    cases s with
    | valid x => rfl
    | garbage g => simp [blockedOfEntry] at h
  | dateRec s =>
    cases s with
    | valid x => rfl
    | garbage g => simp [blockedOfEntry] at h
  | rangeRec a b =>
    cases a with
    | none => simp [blockedOfEntry] at h
    | some x =>
      cases b with
      | none => simp [blockedOfEntry] at h
      | some y => rfl
  | junk => simp [blockedOfEntry] at h

theorem keep_of_valid_mem_range {p : Option Nat × Option Nat} {d : Nat}
    (h : DStr.valid d ∈ blockedOfRange p) : keepRange p = true := by
  rcases p with ⟨a, b⟩
  cases a with
  | none => simp [blockedOfRange] at h
  | some x =>
    cases b with
    | none => simp [blockedOfRange] at h
    | some y => rfl

theorem resolvedBlocked_norm (σ : RawSchedule) (d : Nat) :
    (fmtDate d ∈ resolvedBlocked (normalizeDefault σ)) ↔ fmtDate d ∈ resolvedBlocked σ := by
  unfold resolvedBlocked normalizeDefault fmtDate
  dsimp only
  simp only [List.mem_append, List.mem_flatMap, List.mem_filter]
  constructor
  · rintro (⟨e, ⟨he, -⟩, hd⟩ | ⟨p, ⟨hp, -⟩, hd⟩)
    · exact Or.inl ⟨e, he, hd⟩
    · exact Or.inr ⟨p, hp, hd⟩
  · rintro (⟨e, he, hd⟩ | ⟨p, hp, hd⟩)
    · exact Or.inl ⟨e, ⟨he, keep_of_valid_mem_entry hd⟩, hd⟩
    · exact Or.inr ⟨p, ⟨hp, keep_of_valid_mem_range hd⟩, hd⟩

theorem selectRule_norm (σ : RawSchedule) (date : Nat) :
    selectRule (normalizeDefault σ) date = selectRule σ date := by
  simp only [selectRule, dayOverride_norm, defaultDays_norm, overrideRule_norm,
    defaultRule_norm, resolvedBlocked_norm]

theorem dayProcessF_norm (f : Option Nat) (σ : RawSchedule) (today i : Nat) :
    dayProcessF f (normalizeDefault σ) today i = dayProcessF f σ today i := by
  unfold dayProcessF
  dsimp only
  rw [selectRule_norm]

theorem genDaysF_norm (f : Option Nat) (σ : RawSchedule) (today : Nat) :
    ∀ is : List Nat, genDaysF f (normalizeDefault σ) today is = genDaysF f σ today is := by
  intro is
  induction is with
  | nil => rfl
  | cons i rest ih =>
    rw [genDaysF, genDaysF, dayProcessF_norm, ih]

/-!
Lemmas about the schedule.py variant and the persistence operations.
-/

theorem schedDaysLoop_dates {ds : List Nat} {dur endM : Int} {brs : List (Nat × Nat)}
    {today : Nat} {startM : Int} :
    ∀ {offs : List Nat} {L : List Slot},
      schedDaysLoop ds dur endM brs today startM offs = .ok L →
      ∀ s ∈ L, ∃ off ∈ offs, s.date = ((today + off : Nat) : Int) := by
  intro offs
  induction offs with
  | nil =>
    intro L h s hs
    rw [schedDaysLoop] at h
    cases h
    cases hs
  | cons off rest ih =>
    intro L h s hs
    rw [schedDaysLoop] at h
    by_cases hmem : (today + off) % 7 ∈ ds
    · rw [if_pos hmem] at h
      cases hloop : schedLoop dur endM brs (schedFuel startM endM) startM with
      | none => rw [hloop] at h; cases h
      | some ts =>
        rw [hloop] at h
        dsimp only at h
        cases hrest : schedDaysLoop ds dur endM brs today startM rest with
        | crash => rw [hrest] at h; cases h
        | hang => rw [hrest] at h; cases h
        | ok lr =>
          rw [hrest] at h
          dsimp only at h
          cases h
          rcases List.mem_append.mp hs with hs1 | hs2
          · obtain ⟨t, -, rfl⟩ := List.mem_map.mp hs1
            exact ⟨off, List.mem_cons_self off rest, rfl⟩
          · obtain ⟨j, hj, hdj⟩ := ih hrest s hs2
            exact ⟨j, List.mem_cons_of_mem off hj, hdj⟩
    · rw [if_neg hmem] at h
      obtain ⟨j, hj, hdj⟩ := ih h s hs
      exact ⟨j, List.mem_cons_of_mem off hj, hdj⟩

theorem sched_dates {σ : SchedRaw} {today numDays : Nat} {L : List Slot}
    (h : sched_generate_slots σ today numDays = .ok L) :
    ∀ s ∈ L, ∃ off, off < numDays ∧ s.date = ((today + off : Nat) : Int) := by
  unfold sched_generate_slots at h
  by_cases he : (schedDays σ).isEmpty
  · rw [if_pos he] at h
    cases h
  · rw [if_neg he] at h
    rcases hst : σ.start_time with _ | _ | sp <;> rw [hst] at h
    rotate_left 1
    · cases h
    all_goals (
      rcases hen : σ.end_time with _ | _ | ep <;> rw [hen] at h
      rotate_left 1
      · cases h
      all_goals (
        rcases hdu : σ.duration with _ | _ | dv <;> rw [hdu] at h
        rotate_left 1
        · cases h
        all_goals (
          dsimp only at h
          cases hbr : schedParseBreaks σ.breaks with
          | crash => rw [hbr] at h; cases h
          | hang => rw [hbr] at h; cases h
          | ok brs =>
            rw [hbr] at h
            dsimp only at h
            intro s hs
            obtain ⟨off, hoff, hdate⟩ := schedDaysLoop_dates h s hs
            exact ⟨off, List.mem_range.mp hoff, hdate⟩)))

theorem save_availability_frame (tbl : List AvailRow) (d : String)
    (slots : List SlotIn) :
    (save_availability tbl d slots).filter (fun r => r.doctor_id == d) =
        slots.map (rowOfSlot d) ∧
      (save_availability tbl d slots).filter (fun r => !(r.doctor_id == d)) =
        tbl.filter (fun r => !(r.doctor_id == d)) := by
  unfold save_availability clear_availability
  rw [List.filter_append, List.filter_append]
  constructor
  · have h1 : (tbl.filter (fun r => !(r.doctor_id == d))).filter
        (fun r => r.doctor_id == d) = [] := by
      rw [List.filter_filter]
      apply List.filter_eq_nil_iff.mpr
      intro r _
      cases hrd : r.doctor_id == d <;> simp [hrd]
    have h2 : (slots.map (rowOfSlot d)).filter (fun r => r.doctor_id == d) =
        slots.map (rowOfSlot d) := by
      apply List.filter_eq_self.mpr
      intro r hr
      obtain ⟨sl, -, rfl⟩ := List.mem_map.mp hr
      simp [rowOfSlot]
    rw [h1, h2, List.nil_append]
  · have h1 : (tbl.filter (fun r => !(r.doctor_id == d))).filter
        (fun r => !(r.doctor_id == d)) = tbl.filter (fun r => !(r.doctor_id == d)) := by
      apply List.filter_eq_self.mpr
      intro r hr
      exact (List.mem_filter.mp hr).2
    have h2 : (slots.map (rowOfSlot d)).filter (fun r => !(r.doctor_id == d)) = [] := by
      apply List.filter_eq_nil_iff.mpr
      intro r hr
      obtain ⟨sl, -, rfl⟩ := List.mem_map.mp hr
      simp [rowOfSlot]
    rw [h1, h2, List.append_nil]

theorem get_availability_spec {tbl : List AvailRow} {d : String} {dateF : Option String}
    {s : SlotOut} (h : s ∈ get_availability tbl d dateF) :
    s.status = "available" ∧ (∀ dt, dateF = some dt → s.date = dt) ∧
      ∃ r ∈ tbl, r.doctor_id = d ∧ r.status = "available" ∧ r.date = s.date ∧
        r.time = s.time := by
  unfold get_availability at h
  obtain ⟨r, hr, rfl⟩ := List.mem_map.mp h
  simp only [List.mem_filter] at hr
  obtain ⟨⟨⟨hrtbl, hdoc⟩, hst⟩, hdt⟩ := hr
  refine ⟨?_, ?_, r, hrtbl, ?_, ?_, rfl, rfl⟩
  · exact eq_of_beq hst
  · intro dt hdtf
    rw [hdtf] at hdt
    exact eq_of_beq hdt
  · exact eq_of_beq hdoc
  · exact eq_of_beq hst

/-!
Hang of the inner loop under a zero duration, used for claim C5.
-/

theorem zeroDur_slotLoop_none : ∀ fuel : Nat, slotLoop 0 1020 [] fuel 540 = none := by
  intro fuel
  induction fuel with
  | zero => rfl
  | succ n ih =>
    rw [slotLoop, if_pos (by norm_num), if_neg (by norm_num)]
    show (slotLoop 0 1020 [] n (540 + 0)).map (fun l => 540 :: l) = none
    rw [show ((540 : Int) + 0) = 540 by norm_num, ih]
    rfl

theorem exZeroDur_day_hang (fuel : Nat) :
    dayProcessF (some fuel) exZeroDur 0 0 = .hang := by
  have h1 : dayProcessF (some fuel) exZeroDur 0 0 =
      (match slotLoop 0 1020 [] fuel 540 with
        | some ts => GenResult.ok (ts.map (mkSlot 0))
        | none => GenResult.hang) := rfl
  rw [h1, zeroDur_slotLoop_none fuel]

/-!
The ten claims.
-/

/-- C1 (amended): every slot produced by the index.py enumerator on a
well formed schedule with positive override durations satisfies slot time
plus effective duration at most the rule end time of day. The claim as
stated also covers the schedule.py variant, where it fails, see the
counterexample: that variant emits every slot whose start precedes the
end of day, so its final slot can overrun the boundary. -/
theorem claim_C1_end_containment (σ : RawSchedule) (today : Nat) (L : List Slot)
    (hwf : wfSchedule σ = true) (hpos : posDurations σ = true)
    (hok : generate_slots σ today = .ok L) :
    ∀ s ∈ L, ∃ i r d, i ≤ 180 ∧ selectRule σ (today + i) = .ok (some r) ∧
      r.duration = RawField.val d ∧ s.date = ((today + i : Nat) : Int) ∧
      s.time + d ≤ (r.stop : Int) := by
  intro s hs
  obtain ⟨i, hi, li, hdp, hsl⟩ := (genDays_mem hok s).mp hs
  obtain ⟨-, hfacts⟩ := dayProcess_ok_spec hwf hpos hdp
  obtain ⟨hdate, -, r, brs, d, hsel, hdur, hd1, hpb, ht0, hle, -⟩ := hfacts s hsl
  exact ⟨i, r, d, Nat.lt_succ_iff.mp (List.mem_range.mp hi), hsel, hdur, hdate, hle⟩

/-- Counterexample to C1 as stated: the schedule.py enumerator, on a rule
ending 10:40 with 60 minute slots, emits the 10:00 slot whose end 11:00
overruns the end of day. -/
theorem claim_C1_counterexample :
    Slot.mk 0 600 "available" ∈ (sched_generate_slots exSchedOverrun 0 90).out ∧
      exSchedOverrun.duration = RawField.val 60 ∧
      exSchedOverrun.end_time = RawField.val (10, 40) ∧
      ¬((600 : Int) + 60 ≤ 10 * 60 + 40) := by
  refine ⟨by decide, by decide, by decide, by decide⟩

/-- Witness for the amended C1 at a concrete schedule and slot. -/
theorem claim_C1_witness :
    ∃ i r d, i ≤ 180 ∧ selectRule exMon (0 + i) = .ok (some r) ∧
      r.duration = RawField.val d ∧
      (Slot.mk 0 540 "available").date = ((0 + i : Nat) : Int) ∧
      (Slot.mk 0 540 "available").time + d ≤ (r.stop : Int) :=
  claim_C1_end_containment exMon 0 ((generate_slots exMon 0).out) (by decide) (by decide)
    (by decide) (Slot.mk 0 540 "available") (by decide)

/-- C2 (amended): on the index.py enumerator every emitted slot is dated
on its producing horizon day, and its interval [t, t + duration) meets no
break of the effective rule of that very day under the stated overlap
test; moreover the loop moves the cursor to exactly the end of
the first overlapping break when a candidate overlaps. The claim as
stated also covers the schedule.py variant, where the exclusion fails:
that variant only suppresses a slot whose start lies inside the break,
see the counterexample. -/
theorem claim_C2_break_exclusion (σ : RawSchedule) (today : Nat) (L : List Slot)
    (hwf : wfSchedule σ = true) (hpos : posDurations σ = true)
    (hok : generate_slots σ today = .ok L) :
    (∀ s ∈ L, ∃ i r d brs, i ≤ 180 ∧ selectRule σ (today + i) = .ok (some r) ∧
      r.duration = RawField.val d ∧ parseBreaks r.breaks = some brs ∧
      s.date = ((today + i : Nat) : Int) ∧
      ∀ p ∈ brs, ¬(s.time < (p.2 : Int) ∧ (p.1 : Int) < s.time + d)) ∧
    (∀ (dur endT : Int) (brs : List (Nat × Nat)) (fuel : Nat) (t : Int) (be : Nat),
      t < endT → ¬(t + dur > endT) → findBreak brs t (t + dur) = some be →
      slotLoop dur endT brs (fuel + 1) t = slotLoop dur endT brs fuel (be : Int)) := by
  constructor
  · intro s hs
    obtain ⟨i, hi, li, hdp, hsl⟩ := (genDays_mem hok s).mp hs
    obtain ⟨-, hfacts⟩ := dayProcess_ok_spec hwf hpos hdp
    obtain ⟨hdate, -, r, brs, d, hsel, hdur, hd1, hpb, ht0, hle, hno⟩ := hfacts s hsl
    exact ⟨i, r, d, brs, Nat.lt_succ_iff.mp (List.mem_range.mp hi), hsel, hdur, hpb,
      hdate, hno⟩
  · intro dur endT brs fuel t be h1 h2 h3
    rw [slotLoop, if_pos h1, if_neg h2, h3]

/-- Counterexample to C2 as stated: the schedule.py enumerator emits the
09:30 slot although its interval [570, 630) has a non empty intersection
with the 10:00 to 11:00 break [600, 660) under the stated test. -/
theorem claim_C2_counterexample :
    Slot.mk 0 570 "available" ∈ (sched_generate_slots exSchedOverlap 0 90).out ∧
      exSchedOverlap.duration = RawField.val 60 ∧
      exSchedOverlap.breaks = [(RawField.val (10, 0), RawField.val (11, 0))] ∧
      ¬((570 : Int) ≥ 660 ∨ (570 : Int) + 60 ≤ 600) := by
  refine ⟨by decide, by decide, by decide, by decide⟩

/-- Witness for the amended C2: a concrete emitted slot against a rule
with a break, and a concrete cursor jump to the break end. -/
theorem claim_C2_witness :
    (∃ i r d brs, i ≤ 180 ∧ selectRule exMonBreak (0 + i) = .ok (some r) ∧
      r.duration = RawField.val d ∧ parseBreaks r.breaks = some brs ∧
      (Slot.mk 0 540 "available").date = ((0 + i : Nat) : Int) ∧
      ∀ p ∈ brs, ¬((Slot.mk 0 540 "available").time < (p.2 : Int) ∧
        (p.1 : Int) < (Slot.mk 0 540 "available").time + d)) ∧
    slotLoop 30 660 [(570, 630)] 6 600 = slotLoop 30 660 [(570, 630)] 5 630 := by
  constructor
  · exact (claim_C2_break_exclusion exMonBreak 0 ((generate_slots exMonBreak 0).out)
      (by decide) (by decide) (by decide)).1 (Slot.mk 0 540 "available") (by decide)
  · exact (claim_C2_break_exclusion exMonBreak 0 ((generate_slots exMonBreak 0).out)
      (by decide) (by decide) (by decide)).2 30 660 [(570, 630)] 5 600 630
      (by norm_num) (by norm_num) (by decide)

/-- C3: rule selection precedence. A blocked date yields zero slots even
when its weekday has an override; an override is honored regardless of
the default days list; otherwise the default rule applies exactly when
the weekday is enabled; otherwise the day yields zero slots. -/
theorem claim_C3_precedence (σ : RawSchedule) (today i : Nat) (f : Option Nat)
    (ds : List String) (o : RawOverride) :
    (fmtDate (today + i) ∈ resolvedBlocked σ → dayProcessF f σ today i = .ok []) ∧
    (fmtDate (today + i) ∉ resolvedBlocked σ →
      dayOverride σ (weekdayName ((today + i) % 7)) = some o →
      dayProcessF f (withDays σ ds) today i = dayProcessF f σ today i) ∧
    (fmtDate (today + i) ∉ resolvedBlocked σ →
      dayOverride σ (weekdayName ((today + i) % 7)) = none →
      (today + i) % 7 ∈ defaultDays σ →
      selectRule σ (today + i) = .ok (some (defaultRule σ))) ∧
    (fmtDate (today + i) ∉ resolvedBlocked σ →
      dayOverride σ (weekdayName ((today + i) % 7)) = none →
      (today + i) % 7 ∉ defaultDays σ → dayProcessF f σ today i = .ok []) := by
  refine ⟨?_, ?_, ?_, ?_⟩
  · intro hb
    have hsel : selectRule σ (today + i) = .ok none := by
      unfold selectRule
      rw [if_pos hb]
    unfold dayProcessF
    dsimp only
    rw [hsel]
  · intro hb hov
    have hsel : selectRule (withDays σ ds) (today + i) = selectRule σ (today + i) := by
      unfold selectRule
      rw [show resolvedBlocked (withDays σ ds) = resolvedBlocked σ from rfl,
        show dayOverride (withDays σ ds) (weekdayName ((today + i) % 7)) =
          dayOverride σ (weekdayName ((today + i) % 7)) from rfl, hov]
      dsimp only
      rw [show overrideRule (withDays σ ds) o = overrideRule σ o from rfl]
    unfold dayProcessF
    dsimp only
    rw [hsel]
  · intro hb hov hmem
    unfold selectRule
    rw [if_neg hb, hov]
    dsimp only
    rw [if_pos hmem]
  · intro hb hov hmem
    have hsel : selectRule σ (today + i) = .ok none := by
      unfold selectRule
      rw [if_neg hb, hov]
      dsimp only
      rw [if_neg hmem]
    unfold dayProcessF
    dsimp only
    rw [hsel]

/-- Witness for C3: the four precedence cases at concrete schedules. -/
theorem claim_C3_witness :
    dayProcessF none exBlocked 0 0 = .ok [] ∧
      dayProcessF none (withDays exSatOverride ["Sunday"]) 0 5 =
        dayProcessF none exSatOverride 0 5 ∧
      selectRule exMon 0 = .ok (some (defaultRule exMon)) ∧
      dayProcessF none exMon 0 1 = .ok [] := by
  refine ⟨?_, ?_, ?_, ?_⟩
  · exact (claim_C3_precedence exBlocked 0 0 none []
      ⟨some "Monday", .val 540, .val 600, .val 30, some []⟩).1 (by decide)
  · exact (claim_C3_precedence exSatOverride 0 5 none ["Sunday"]
      ⟨some "Saturday", .val 480, .val 510, .val 30, some []⟩).2.1 (by decide) (by decide)
  · exact (claim_C3_precedence exMon 0 0 none []
      ⟨some "Monday", .val 540, .val 600, .val 30, some []⟩).2.2.1 (by decide) (by decide)
      (by decide)
  · exact (claim_C3_precedence exMon 0 1 none []
      ⟨some "Monday", .val 540, .val 600, .val 30, some []⟩).2.2.2 (by decide) (by decide)
      (by decide)

/-- C4 (amended): for a date whose weekday has an override, the effective
rule takes the override values, with 09:00 and 17:00 for absent time
fields and the default duration for an absent duration, but an absent
breaks field becomes the empty list: the default breaks are NOT
inherited, contrary to the claim as stated, see the counterexample. -/
theorem claim_C4_override_fallback (σ : RawSchedule) (date : Nat) (o : RawOverride)
    (hb : fmtDate date ∉ resolvedBlocked σ)
    (hov : dayOverride σ (weekdayName (date % 7)) = some o)
    (hs : o.start_time ≠ RawField.bad) (he : o.end_time ≠ RawField.bad) :
    selectRule σ date = .ok (some ⟨fallbackTime o.start_time 540,
      fallbackTime o.end_time 1020, overrideDur σ o, o.breaks.getD []⟩) := by
  unfold selectRule
  rw [if_neg hb, hov]
  dsimp only
  rw [if_neg (fun h => h.elim hs he)]
  rfl

/-- Counterexample to C4 as stated: with a default lunch break and a
Monday override omitting its breaks field, the effective Monday rule
carries the empty break list, not the default breaks. -/
theorem claim_C4_counterexample :
    selectRule exNoInherit 0 = .ok (some ⟨540, 1020, RawField.val 30, []⟩) ∧
      defaultBreaks exNoInherit = [⟨RawField.val 720, RawField.val 780⟩] ∧
      (⟨540, 1020, RawField.val 30, []⟩ : EffRule).breaks ≠
        defaultBreaks exNoInherit := by
  refine ⟨by decide, by decide, by decide⟩

/-- Witness for the amended C4 at a concrete Saturday override. -/
theorem claim_C4_witness :
    selectRule exSatOverride 5 = .ok (some ⟨480, 510, RawField.val 30, []⟩) :=
  claim_C4_override_fallback exSatOverride 5
    ⟨some "Saturday", .val 480, .val 510, .val 30, some []⟩
    (by decide) (by decide) (by decide) (by decide)

/-- C5 (amended): on a validated, well formed schedule whose override
durations are at least one minute and whose reachable fields parse, the
enumerator terminates with a finite, eagerly materialized list. The claim
as stated promises this for any override duration value; it fails at a
zero duration, where the inner loop re-emits the same cursor forever, see
the counterexample. -/
theorem claim_C5_termination (σ : RawSchedule) (today : Nat)
    (_hv : validStructure σ) (hwf : wfSchedule σ = true)
    (hpos : posDurations σ = true) (hnb : noBadFields σ = true) :
    ∃ L, generate_slots σ today = .ok L := by
  unfold generate_slots
  exact genDays_total (fun i _ => dayProcess_total today i hwf hpos hnb)

/-- Counterexample to C5 as stated: a validated structure whose Monday
override has slot duration zero makes the run exceed every fuel bound. -/
theorem claim_C5_counterexample :
    validStructure exZeroDur ∧ ¬ Terminates exZeroDur 0 := by
  constructor
  · exact ⟨by decide, by decide, by decide⟩
  · rintro ⟨fuel, hne⟩
    apply hne
    rw [show List.range 181 = 0 :: (List.range 180).map (· + 1) from
      List.range_succ_eq_map 180, genDaysF, exZeroDur_day_hang fuel]

/-- Witness for the amended C5 at a concrete schedule. -/
theorem claim_C5_witness :
    ∃ L, generate_slots exMon 0 = .ok L :=
  claim_C5_termination exMon 0 ⟨by decide, by decide, by decide⟩ (by decide) (by decide)
    (by decide)

/-- C6 (amended): a slot is in the index.py output exactly when one of
the day offsets 0 to 180 produces it, so the horizon spans 181 calendar
days, one more than the 180 of the claim as stated, see the
counterexample; under well formedness and positive durations every slot
date lies in [today, today + 180]. The schedule.py variant spans exactly
its numDays days. -/
theorem claim_C6_horizon (σ : RawSchedule) (today : Nat) (L : List Slot)
    (hok : generate_slots σ today = .ok L) :
    (∀ s, s ∈ L ↔ ∃ i, i ≤ 180 ∧ ∃ li, dayProcessF none σ today i = .ok li ∧ s ∈ li) ∧
    (wfSchedule σ = true → posDurations σ = true →
      ∀ s ∈ L, (today : Int) ≤ s.date ∧ s.date ≤ (today : Int) + 180) ∧
    (∀ (τ : SchedRaw) (t numDays : Nat) (L2 : List Slot),
      sched_generate_slots τ t numDays = .ok L2 →
      ∀ s ∈ L2, (t : Int) ≤ s.date ∧ s.date < (t : Int) + numDays) := by
  refine ⟨?_, ?_, ?_⟩
  · intro s
    constructor
    · intro hs
      obtain ⟨i, hi, li, h1, h2⟩ := (genDays_mem hok s).mp hs
      exact ⟨i, Nat.lt_succ_iff.mp (List.mem_range.mp hi), li, h1, h2⟩
    · rintro ⟨i, hi, li, h1, h2⟩
      exact (genDays_mem hok s).mpr
        ⟨i, List.mem_range.mpr (Nat.lt_succ_iff.mpr hi), li, h1, h2⟩
  · intro hwf hpos s hs
    obtain ⟨i, hi, li, hdp, hsl⟩ := (genDays_mem hok s).mp hs
    have hdate := ((dayProcess_ok_spec hwf hpos hdp).2 s hsl).1
    have hi2 : i ≤ 180 := Nat.lt_succ_iff.mp (List.mem_range.mp hi)
    rw [hdate]
    push_cast
    omega
  · intro τ t numDays L2 h2 s hs
    obtain ⟨off, hoff, hdate⟩ := sched_dates h2 s hs
    rw [hdate]
    push_cast
    omega

/-- Counterexample to C6 as stated: with Saturdays enabled and day zero a
Monday, the index.py run emits a slot dated at offset 180, outside a
window of exactly 180 consecutive days starting today. -/
theorem claim_C6_counterexample :
    Slot.mk 180 540 "available" ∈ (generate_slots exSat 0).out ∧
      ¬((Slot.mk 180 540 "available").date < (0 : Int) + 180) := by
  refine ⟨by decide, by decide⟩

/-- Witness for the amended C6: the date bounds at a concrete slot. -/
theorem claim_C6_witness :
    ((0 : Nat) : Int) ≤ (Slot.mk 0 540 "available").date ∧
      (Slot.mk 0 540 "available").date ≤ ((0 : Nat) : Int) + 180 :=
  (claim_C6_horizon exMon 0 ((generate_slots exMon 0).out) (by decide)).2.1
    (by decide) (by decide) (Slot.mk 0 540 "available") (by decide)

/-- C7 (amended): malformed fields of the default rule (unusable start,
end, duration or breaks values) are clamped to the 09:00, 17:00, 30
minute, empty list fallbacks, and unusable blocked date entries are
dropped, without changing the output or aborting: generation on the raw
schedule equals generation on the clamped one, and an unparsable default
start_time falls back to 09:00. The claim as stated also promises
recovery for unparsable break entries and override fields; those raise
and abort the whole generation, see the counterexample. -/
theorem claim_C7_default_clamping (σ : RawSchedule) (today : Nat) :
    generate_slots (normalizeDefault σ) today = generate_slots σ today ∧
      (σ.dflt.start_time = RawField.bad → defaultStart σ = 540) := by
  constructor
  · unfold generate_slots
    exact genDaysF_norm none σ today (List.range 181)
  · intro h
    unfold defaultStart
    rw [h]

/-- Counterexample to C7 as stated: a default rule whose break list holds
an unparsable end makes the whole generation raise instead of skipping
the entry. -/
theorem claim_C7_counterexample :
    validStructure exBadBreak ∧ generate_slots exBadBreak 0 = GenResult.crash := by
  constructor
  · exact ⟨by decide, by decide, by decide⟩
  · decide

/-- Witness for the amended C7 at a schedule with an unusable default
start_time. -/
theorem claim_C7_witness :
    generate_slots (normalizeDefault exBadStart) 0 = generate_slots exBadStart 0 ∧
      defaultStart exBadStart = 540 :=
  ⟨(claim_C7_default_clamping exBadStart 0).1, (claim_C7_default_clamping exBadStart 0).2 rfl⟩

/-- C8 (amended): on a well formed schedule with positive override
durations the index.py output is strictly sorted by date then time, with
no duplicates, and every slot carries status available. The claim as
stated covers any durations; with a negative override duration the loop
can terminate after emitting decreasing times, see the counterexample. -/
theorem claim_C8_sorted_output (σ : RawSchedule) (today : Nat) (L : List Slot)
    (hwf : wfSchedule σ = true) (hpos : posDurations σ = true)
    (hok : generate_slots σ today = .ok L) :
    List.Pairwise slotLt L ∧ ∀ s ∈ L, s.status = "available" := by
  constructor
  · exact genDays_sorted hwf hpos (List.pairwise_lt_range 181) hok
  · intro s hs
    obtain ⟨i, hi, li, hdp, hsl⟩ := (genDays_mem hok s).mp hs
    exact ((dayProcess_ok_spec hwf hpos hdp).2 s hsl).2.1

/-- Counterexample to C8 as stated: the Monday override with duration
minus 1000 minutes yields a terminating run whose output starts with the
16:40 slot followed by the 00:00 slot of the same date. -/
theorem claim_C8_counterexample :
    (generate_slots exNegDur 0).isOk = true ∧
      ¬ List.Pairwise slotLt (generate_slots exNegDur 0).out := by
  refine ⟨by decide, by decide⟩

/-- Witness for the amended C8 at a concrete schedule. -/
theorem claim_C8_witness :
    List.Pairwise slotLt (generate_slots exMon 0).out ∧
      ∀ s ∈ (generate_slots exMon 0).out, s.status = "available" :=
  claim_C8_sorted_output exMon 0 ((generate_slots exMon 0).out) (by decide) (by decide)
    (by decide)

/-- C9: save_availability replaces, never merges: after the save, the
rows of the doctor are exactly the given slots (status defaulting to
available) and the rows of every other doctor are unchanged; whatever was
stored for the doctor before, booked or not, is gone. -/
theorem claim_C9_save_replaces (tbl : List AvailRow) (d : String)
    (slots : List SlotIn) :
    (save_availability tbl d slots).filter (fun r => r.doctor_id == d) =
        slots.map (rowOfSlot d) ∧
      (save_availability tbl d slots).filter (fun r => !(r.doctor_id == d)) =
        tbl.filter (fun r => !(r.doctor_id == d)) :=
  save_availability_frame tbl d slots

/-- C10: every slot returned by get_availability has status available,
matches the optional date filter, and projects a stored row of the
requested doctor with status available, so neither the get slots endpoint
nor the pre booking re check ever sees a booked slot. -/
theorem claim_C10_get_only_available {tbl : List AvailRow} {d : String}
    {dateF : Option String} {s : SlotOut} (h : s ∈ get_availability tbl d dateF) :
    s.status = "available" ∧ (∀ dt, dateF = some dt → s.date = dt) ∧
      ∃ r ∈ tbl, r.doctor_id = d ∧ r.status = "available" ∧ r.date = s.date ∧
        r.time = s.time :=
  get_availability_spec h

/-- Witness for C10 at a concrete table. -/
theorem claim_C10_witness :
    (⟨"2026-01-05", "09:00", "available"⟩ : SlotOut).status = "available" ∧
      (∀ dt, (some "2026-01-05" : Option String) = some dt →
        (⟨"2026-01-05", "09:00", "available"⟩ : SlotOut).date = dt) ∧
      ∃ r ∈ exTable, r.doctor_id = "dr-a" ∧ r.status = "available" ∧
        r.date = (⟨"2026-01-05", "09:00", "available"⟩ : SlotOut).date ∧
        r.time = (⟨"2026-01-05", "09:00", "available"⟩ : SlotOut).time :=
  claim_C10_get_only_available (by decide)

end SlotlyMed
